import Mathlib

/-!
Verification of the `kafka-utils` rebalance command
(`src/yelp_kafka_tool/kafka_cluster_manager/cmds/rebalance.py`).

The file embeds the orchestration logic of `RebalanceCmd` shallowly:
pure data is translated directly; calls into modules that are not part
of the source tree (the cluster-topology balancers, the imbalance
scorer, `validate_plan`) are parameters of an environment record, and
components whose code is absent but whose behaviour the specification
describes (`get_reduced_assignment`, `assignment_to_plan`,
`positive_int`, the greedy balancing loops, the leader-swap mutator)
are modelled from the specification, each marked as such in its doc
comment.
-/

/-- A partition key: (topic name, partition index). -/
abbrev TPKey := String × Nat

/-- An assignment: an association list from partition key to the ordered
replica list (position 0 is the leader).  The list order is the stable
iteration order of the assignment. -/
abbrev Assignment := List (TPKey × List Nat)

/-- Look up a partition's replica list in an assignment (first match). -/
def lookupA (a : Assignment) (k : TPKey) : Option (List Nat) :=
  (a.find? (fun e => e.1 == k)).map Prod.snd

/-- Modelled from the spec: the reassignment plan shape of §6,
`{"version": 1, "partitions": [{topic, partition, replicas}, ...]}`
(the real `assignment_to_plan` lives in `kafka_cluster_manager/util.py`,
which is not under src/). -/
structure Plan where
  version : Nat
  plan_partitions : List (String × Nat × List Nat)
deriving DecidableEq, Repr

/-- Modelled from the spec: `assignment_to_plan` converts an assignment
to the plan mapping of §6. -/
def assignment_to_plan (a : Assignment) : Plan :=
  { version := 1
    plan_partitions := a.map (fun e => (e.1.1, e.1.2, e.2)) }

/-- The dictionary returned by `imbalance_value_all` (module
`cluster_info/stats.py`, not under src/): one non-negative integer per
metric.  Code in src/ only reads these fields. -/
structure ImbalanceStats where
  replica_cnt : Nat
  net_part_cnt_per_rg : Nat
  topic_partition_cnt : Nat
  partition_cnt : Nat
  leader_cnt : Nat
  total_movements : Nat
deriving DecidableEq, Repr

/-- The command-line arguments consumed by `rebalance_cluster`
(`args` in the source). -/
structure Args where
  replication_groups : Bool
  brokers : Bool
  leaders : Bool
  max_partition_movements : Nat
  max_leader_changes : Nat
  proposed_plan_file : Bool
  apply : Bool
  no_confirm : Bool
deriving DecidableEq, Repr

/-- The external collaborators of `rebalance_cluster`, as abstract
functions: the pending-reassignment flag read from ZooKeeper, the
`ClusterTopology` state (identified with its extracted assignment) and
its three mutating balancers, the imbalance scorer, and `validate_plan`.
None of these is defined under src/; the code in src/ only calls them. -/
structure ClusterEnv where
  pending : Bool
  initial_assignment : Assignment
  rg_balance : Assignment → Assignment
  broker_balance : Assignment → Assignment
  leader_balance : Assignment → Assignment
  imbalance_value_all : Assignment → ImbalanceStats
  validate_plan : Plan → Plan → Bool

/-- The balancing phases, in the fixed order the source runs them. -/
inductive BPhase
  | rg
  | brokers
  | leaders
deriving DecidableEq, Repr

/-- How a run aborts: `pendingExit` and `validationExit` are the two
`sys.exit(1)` calls of `rebalance_cluster`; the other three are the
`assert` statements of the stats helpers. -/
inductive AbortReason
  | pendingExit
  | validationExit
  | assertReplicaCnt
  | assertNetPartCnt
  | assertLeaderCnt
deriving DecidableEq, Repr

/-- Observable events of a run, in execution order. -/
inductive Event
  | builtTopology
  | ranPhase (p : BPhase)
  | reducedPlan
  | exported (p : Plan)
  | executed (p : Plan)
deriving DecidableEq, Repr

/-- Embeds `replication_group_rebalance_stats` (rebalance.py:175-190): asserts
that `replica_cnt` is zero after the replication-group phase. -/
def replication_group_rebalance_stats (env : ClusterEnv) (s : Assignment) :
    Option AbortReason :=
  if (env.imbalance_value_all s).replica_cnt = 0 then none
  else some AbortReason.assertReplicaCnt

/-- Embeds `broker_rebalance_stats` (rebalance.py:192-213): asserts that
`net_part_cnt_per_rg` did not increase over the initial statistics. -/
def broker_rebalance_stats (env : ClusterEnv) (s : Assignment)
    (initial_imbal : ImbalanceStats) : Option AbortReason :=
  if (env.imbalance_value_all s).net_part_cnt_per_rg ≤
      initial_imbal.net_part_cnt_per_rg then none
  else some AbortReason.assertNetPartCnt

/-- Embeds `final_rebalance_stats` (rebalance.py:215-234): when the leader phase
ran, asserts that `leader_cnt` did not increase over the initial
statistics. -/
def final_rebalance_stats (env : ClusterEnv) (s : Assignment)
    (initial_imbal : ImbalanceStats) (leaders_balanced : Bool) :
    Option AbortReason :=
  if leaders_balanced then
    if (env.imbalance_value_all s).leader_cnt ≤ initial_imbal.leader_cnt
    then none
    else some AbortReason.assertLeaderCnt
  else none

/-- One guarded balancing phase of `build_balanced_assignment`: when
`run` is selected and no earlier phase aborted, apply the balancer and
then the stats assertion, recording the phase as run. -/
def phase_step (run : Bool) (ph : BPhase) (bal : Assignment → Assignment)
    (check : Assignment → Option AbortReason)
    (acc : List BPhase × Except AbortReason Assignment) :
    List BPhase × Except AbortReason Assignment :=
  match acc with
  | (ev, Except.error r) => (ev, Except.error r)
  | (ev, Except.ok s) =>
    if run then
      let s2 := bal s
      match check s2 with
      | none => (ev ++ [ph], Except.ok s2)
      | some r => (ev ++ [ph], Except.error r)
    else (ev, Except.ok s)

/-- Embeds `build_balanced_assignment` (rebalance.py:124-157): runs the selected
phases in the fixed order replication-groups, brokers, leaders, with the
stats assertion after each; returns the list of phases actually run,
and the resulting assignment or the abort reason of the first failing
assertion. -/
def build_balanced_assignment (env : ClusterEnv) (args : Args) :
    List BPhase × Except AbortReason Assignment :=
  let initial_imbal := env.imbalance_value_all env.initial_assignment
  let s0 := env.initial_assignment
  phase_step args.leaders BPhase.leaders env.leader_balance
    (fun s => final_rebalance_stats env s initial_imbal args.leaders)
    (phase_step args.brokers BPhase.brokers env.broker_balance
      (fun s => broker_rebalance_stats env s initial_imbal)
      (phase_step args.replication_groups BPhase.rg env.rg_balance
        (fun s => replication_group_rebalance_stats env s)
        ([], Except.ok s0)))

/-- Whether two replica lists have the same replica *set*. -/
def sameSet (xs ys : List Nat) : Bool :=
  xs.all (fun b => ys.contains b) && ys.all (fun b => xs.contains b)

/-- Modelled from the spec (§4.7): a partition is a "movement" when its
candidate replica set differs from the baseline's. -/
def isMovement (b c : List Nat) : Bool := !sameSet b c

/-- Modelled from the spec (§4.7): a partition is a "leader-change" when
the replica set is identical but the leader (position 0) differs. -/
def isLeaderOnly (b c : List Nat) : Bool :=
  sameSet b c && b.head? != c.head?

/-- The candidate replica list for a baseline entry: the candidate
assignment's list for this key, defaulting to the baseline list when the
key is absent from the candidate. -/
def candOf (cand : Assignment) (k : TPKey) (b : List Nat) : List Nat :=
  (lookupA cand k).getD b

/-- Keys of baseline partitions classified as movements, in the stable
baseline order. -/
def movementKeys (base cand : Assignment) : List TPKey :=
  (base.filter (fun e => isMovement e.2 (candOf cand e.1 e.2))).map Prod.fst

/-- Keys of baseline partitions classified as leader-only changes, in the
stable baseline order. -/
def leaderKeys (base cand : Assignment) : List TPKey :=
  (base.filter (fun e => isLeaderOnly e.2 (candOf cand e.1 e.2))).map Prod.fst

/-- Modelled from the spec (§4.7): `get_reduced_assignment` (defined in
the `ClusterManagerCmd` base class, not under src/).  Keeps at most
`maxMov` movement partitions and at most `maxLead` leader-only-change
partitions, selected in the stable key order; every other partition is
reverted to its baseline replica list.  Returns the reduced assignment
and the count of changes kept. -/
def get_reduced_assignment (base cand : Assignment)
    (maxMov maxLead : Nat) : Assignment × Nat :=
  let kept := (movementKeys base cand).take maxMov ++
              (leaderKeys base cand).take maxLead
  ( base.map (fun e =>
      if kept.contains e.1 then (e.1, candOf cand e.1 e.2) else e),
    ((movementKeys base cand).take maxMov).length +
    ((leaderKeys base cand).take maxLead).length )

/-- Embeds `rebalance_cluster` (rebalance.py:63-122): exits when a reassignment
is pending; builds the topology; balances; validates the balanced
assignment against the base assignment, exiting on failure; reduces the
plan to the movement budgets; exports the reduced plan when a plan file
was given; executes the reduced plan.  Returns the event trace and the
abort reason, if any. -/
def rebalance_cluster (env : ClusterEnv) (args : Args) :
    List Event × Option AbortReason :=
  if env.pending then ([], some AbortReason.pendingExit)
  else
    let base_assignment := env.initial_assignment
    match build_balanced_assignment env args with
    | (ev, Except.error r) =>
      (Event.builtTopology :: ev.map Event.ranPhase, some r)
    | (ev, Except.ok assignment) =>
      if env.validate_plan (assignment_to_plan assignment)
          (assignment_to_plan base_assignment) then
        let reduced := get_reduced_assignment base_assignment assignment
          args.max_partition_movements args.max_leader_changes
        let plan := assignment_to_plan reduced.1
        ( Event.builtTopology :: ev.map Event.ranPhase ++ [Event.reducedPlan] ++
          (if args.proposed_plan_file then [Event.exported plan] else []) ++
          [Event.executed plan],
          none)
      else (Event.builtTopology :: ev.map Event.ranPhase,
            some AbortReason.validationExit)

/-- Embeds `DEFAULT_MAX_PARTITION_MOVEMENTS` (rebalance.py:15). -/
def DEFAULT_MAX_PARTITION_MOVEMENTS : Int := 1

/-- Embeds `DEFAULT_MAX_LEADER_CHANGES` (rebalance.py:16). -/
def DEFAULT_MAX_LEADER_CHANGES : Int := 5

/-- Modelled from the spec: `positive_int` (defined in the CLI base
class, not under src/) accepts only positive integers, rejecting
everything else. -/
def positive_int (v : Int) : Option Int :=
  if 0 < v then some v else none

/-- The value `argparse` binds for `--max-partition-movements`
(rebalance.py:46-53): the default when the flag is absent, otherwise
the supplied value passed through `positive_int`. -/
def parsed_max_partition_movements (supplied : Option Int) : Option Int :=
  match supplied with
  | none => some DEFAULT_MAX_PARTITION_MOVEMENTS
  | some v => positive_int v

/-- The value `argparse` binds for `--max-leader-changes`
(rebalance.py:54-60): the default when the flag is absent, otherwise
the supplied value passed through `positive_int`. -/
def parsed_max_leader_changes (supplied : Option Int) : Option Int :=
  match supplied with
  | none => some DEFAULT_MAX_LEADER_CHANGES
  | some v => positive_int v


/-- Number of baseline partitions classified as movements against
another assignment (replica set changed). -/
def movement_cnt (base other : Assignment) : Nat :=
  (base.filter (fun e => isMovement e.2 (candOf other e.1 e.2))).length

/-- Number of baseline partitions classified as leader-only changes
against another assignment (replica set identical, leader changed). -/
def leader_change_cnt (base other : Assignment) : Nat :=
  (base.filter (fun e => isLeaderOnly e.2 (candOf other e.1 e.2))).length

/-- The number of entries at which an assignment differs from the
baseline it was derived from, position by position (the reduced
assignment is entry-aligned with its baseline). -/
def changed_entry_cnt (base red : Assignment) : Nat :=
  ((base.zip red).filter (fun q => decide (q.1 ≠ q.2))).length

/-- Modelled from the spec (§4.3-§4.5): each balancing phase is a greedy
local search.  `step` returns the state after one imbalance-reducing
move, or `none` when no legal move reduces the phase's score;
`greedy_run` iterates it under a fuel bound. -/
def greedy_run {σ : Type} (step : σ → Option σ) : Nat → σ → σ
  | 0, s => s
  | n + 1, s =>
    match step s with
    | none => s
    | some t => greedy_run step n t

/-- Modelled from the spec (§4.3-§4.5): a balancing phase runs the
greedy loop until no move reduces its score; the initial score bounds
the number of moves because each move strictly decreases the bounded
non-negative integer score. -/
def greedy_balance {σ : Type} (score : σ → Nat) (step : σ → Option σ) (s : σ) : σ :=
  greedy_run step (score s) s

/-- A concrete strictly-improving step on `Nat` scores, used by the
witnesses. -/
def decStep : Nat → Option Nat
  | 0 => none
  | n + 1 => some n

/-- Modelled from the spec (§4.1, §4.5): a leader change promotes the
replica at position `i` to the leader position by swapping it with the
current leader — a reordering of the replica sequence that moves no
replica between brokers. -/
def promote_at (l : List Nat) (i : Nat) : List Nat :=
  match l with
  | [] => []
  | x :: xs =>
    if i = 0 then x :: xs
    else
      match xs.get? (i - 1) with
      | some y => y :: xs.set (i - 1) x
      | none => x :: xs

/-- Modelled from the spec (§4.5): one leader swap of the Leader
Balancer applied to partition `k`, making the replica at position `i`
its leader. -/
def leader_swap (a : Assignment) (k : TPKey) (i : Nat) : Assignment :=
  a.map (fun e => if e.1 == k then (e.1, promote_at e.2 i) else e)

/-- Modelled from the spec (§4.5): a run of the Leader Balancer is the
sequence of leader swaps its greedy heuristic chooses; any run is a fold
of `leader_swap` over the chosen (partition, position) moves. -/
def rebalance_leaders_run (a : Assignment) (moves : List (TPKey × Nat)) : Assignment :=
  moves.foldl (fun acc mv => leader_swap acc mv.1 mv.2) a

/-- The number of partitions hosting a replica on broker `b`: the
per-broker input of the `partition_cnt` metric. -/
def broker_partition_cnt (a : Assignment) (b : Nat) : Nat :=
  (a.filter (fun e => decide (b ∈ e.2))).length

/-- The number of replicas of topic `t` hosted on brokers satisfying
`inGroup`: the per-replication-group input of the `replica_cnt`
metric. -/
def topic_group_replica_cnt (a : Assignment) (t : String) (inGroup : Nat → Bool) : Nat :=
  ((a.filter (fun e => e.1.1 == t)).map (fun e => e.2.countP inGroup)).sum

/-- Concrete environments used by the witnesses: identity balancers over
a one-partition assignment, an all-zero scorer, and a constant
validator. -/
def envOf (pending valid : Bool) : ClusterEnv where
  pending := pending
  initial_assignment := [(("t", 0), [1, 2])]
  rg_balance := id
  broker_balance := id
  leader_balance := id
  imbalance_value_all := fun _ => ⟨0, 0, 0, 0, 0, 0⟩
  validate_plan := fun _ _ => valid

/-- Arguments with all three phases selected and the default budgets. -/
def allPhaseArgs : Args :=
  ⟨true, true, true, 1, 5, false, false, false⟩

/-- C2: if a reassignment is already pending, `rebalance_cluster` exits
immediately: the event trace is empty (no topology construction, no
balancing phase, no reduction, no export, no execution) and the run
aborts with the pending-reassignment exit. -/
theorem pending_reassignment_aborts_run (env : ClusterEnv) (args : Args)
    (h : env.pending = true) :
    rebalance_cluster env args = ([], some AbortReason.pendingExit) := by
  simp [rebalance_cluster, h]

/-- Witness for C2 at a concrete environment. -/
theorem pending_reassignment_aborts_run_witness :
    rebalance_cluster (envOf true true) allPhaseArgs =
      ([], some AbortReason.pendingExit) :=
  pending_reassignment_aborts_run (envOf true true) allPhaseArgs rfl

/-- C1: when the balanced assignment fails validation against the base
assignment, `rebalance_cluster` aborts with the validation exit and its
trace contains no plan-reduction, plan-export, or plan-execution
event. -/
theorem validation_failure_aborts_run (env : ClusterEnv) (args : Args)
    (a : Assignment) (ev : List BPhase)
    (hp : env.pending = false)
    (hb : build_balanced_assignment env args = (ev, Except.ok a))
    (hv : env.validate_plan (assignment_to_plan a)
      (assignment_to_plan env.initial_assignment) = false) :
    rebalance_cluster env args =
      (Event.builtTopology :: ev.map Event.ranPhase,
       some AbortReason.validationExit) ∧
    ∀ e ∈ (rebalance_cluster env args).1,
      e ≠ Event.reducedPlan ∧ ∀ p, e ≠ Event.exported p ∧ e ≠ Event.executed p := by
  have hres : rebalance_cluster env args =
      (Event.builtTopology :: ev.map Event.ranPhase,
       some AbortReason.validationExit) := by
    simp [rebalance_cluster, hp, hb, hv]
  refine ⟨hres, ?_⟩
  rw [hres]
  intro e he
  rcases List.mem_cons.mp he with h1 | h1
  · subst h1; exact ⟨by simp, fun p => ⟨by simp, by simp⟩⟩
  · rcases List.mem_map.mp h1 with ⟨q, _, hq⟩
    subst hq; exact ⟨by simp, fun p => ⟨by simp, by simp⟩⟩

/-- Witness for C1 at a concrete environment whose validator rejects. -/
theorem validation_failure_aborts_run_witness :
    rebalance_cluster (envOf false false) allPhaseArgs =
      (Event.builtTopology ::
        [BPhase.rg, BPhase.brokers, BPhase.leaders].map Event.ranPhase,
       some AbortReason.validationExit) :=
  (validation_failure_aborts_run (envOf false false) allPhaseArgs
    [(("t", 0), [1, 2])] [BPhase.rg, BPhase.brokers, BPhase.leaders]
    rfl rfl rfl).1

/-- Inversion for `phase_step` ending in success: the accumulator was a
success, and the phase was appended exactly when selected. -/
lemma phase_step_ok {run : Bool} {ph : BPhase} {bal : Assignment → Assignment}
    {check : Assignment → Option AbortReason}
    {acc : List BPhase × Except AbortReason Assignment}
    {ev : List BPhase} {a : Assignment}
    (h : phase_step run ph bal check acc = (ev, Except.ok a)) :
    ∃ ev0 s0, acc = (ev0, Except.ok s0) ∧
      ev = ev0 ++ (if run then [ph] else []) := by
  rcases acc with ⟨ev0, res⟩
  cases res with
  | error r => simp [phase_step] at h
  | ok s =>
    refine ⟨ev0, s, rfl, ?_⟩
    by_cases hr : run
    · simp only [phase_step, hr, if_true] at h ⊢
      cases hc : check (bal s) <;> rw [hc] at h <;> simp_all
    · simp only [phase_step, hr, if_false, Bool.false_eq_true] at h ⊢
      simp at h
      simp [h.1]

/-- A phase step propagates an earlier abort unchanged. -/
lemma phase_step_error (run : Bool) (ph : BPhase) (bal : Assignment → Assignment)
    (check : Assignment → Option AbortReason) (ev : List BPhase) (r : AbortReason) :
    phase_step run ph bal check (ev, Except.error r) = (ev, Except.error r) := rfl

/-- C6: on a normally-completing build, the list of phases actually run
is exactly the selected ones, in the fixed order replication-groups,
then brokers, then leaders. -/
theorem phases_run_selected_in_fixed_order (env : ClusterEnv) (args : Args)
    (a : Assignment) (ev : List BPhase)
    (hb : build_balanced_assignment env args = (ev, Except.ok a)) :
    ev = (if args.replication_groups then [BPhase.rg] else []) ++
         (if args.brokers then [BPhase.brokers] else []) ++
         (if args.leaders then [BPhase.leaders] else []) := by
  simp only [build_balanced_assignment] at hb
  obtain ⟨ev2, s2, h2, hev⟩ := phase_step_ok hb
  obtain ⟨ev1, s1, h1, hev1⟩ := phase_step_ok h2
  obtain ⟨ev0, s0, h0, hev0⟩ := phase_step_ok h1
  have hnil : ev0 = [] := by
    have := congrArg Prod.fst h0
    simpa using this.symm
  subst hnil
  simp [hev, hev1, hev0]

/-- Witness for C6: with all three phases selected, the trace is the
three phases in order. -/
theorem phases_run_selected_in_fixed_order_witness :
    [BPhase.rg, BPhase.brokers, BPhase.leaders] =
      (if allPhaseArgs.replication_groups then [BPhase.rg] else []) ++
      (if allPhaseArgs.brokers then [BPhase.brokers] else []) ++
      (if allPhaseArgs.leaders then [BPhase.leaders] else []) :=
  phases_run_selected_in_fixed_order (envOf false true) allPhaseArgs
    [(("t", 0), [1, 2])] [BPhase.rg, BPhase.brokers, BPhase.leaders] rfl

/-- C9: in a run that passes the pending gate and selects the
replication-group phase, either `replica_cnt` is exactly zero right
after `rebalance_replication_groups`, or the run aborts loudly with the
`replica_cnt == 0` assertion. -/
theorem rg_phase_exact_balance_or_aborts (env : ClusterEnv) (args : Args)
    (hp : env.pending = false) (h : args.replication_groups = true) :
    (env.imbalance_value_all (env.rg_balance env.initial_assignment)).replica_cnt = 0 ∨
    (rebalance_cluster env args).2 = some AbortReason.assertReplicaCnt := by
  by_cases hz :
      (env.imbalance_value_all (env.rg_balance env.initial_assignment)).replica_cnt = 0
  · exact Or.inl hz
  · right
    have h1 : phase_step true BPhase.rg env.rg_balance
        (fun s => replication_group_rebalance_stats env s)
        ([], Except.ok env.initial_assignment) =
        ([BPhase.rg], Except.error AbortReason.assertReplicaCnt) := by
      simp [phase_step, replication_group_rebalance_stats, hz]
    have hb : build_balanced_assignment env args =
        ([BPhase.rg], Except.error AbortReason.assertReplicaCnt) := by
      simp only [build_balanced_assignment, h]
      rw [h1, phase_step_error, phase_step_error]
    simp [rebalance_cluster, hp, hb]

/-- Witness for C9 at a concrete environment (perfectly balanced, so the
left disjunct holds). -/
theorem rg_phase_exact_balance_or_aborts_witness :
    ((envOf false true).imbalance_value_all
      ((envOf false true).rg_balance (envOf false true).initial_assignment)).replica_cnt = 0 ∨
    (rebalance_cluster (envOf false true) allPhaseArgs).2 =
      some AbortReason.assertReplicaCnt :=
  rg_phase_exact_balance_or_aborts (envOf false true) allPhaseArgs rfl rfl

/-- C8: `--max-partition-movements` defaults to 1 and
`--max-leader-changes` defaults to 5 when not supplied, and a supplied
value is accepted exactly when it is a positive integer. -/
theorem budget_defaults_and_positivity :
    parsed_max_partition_movements none = some 1 ∧
    parsed_max_leader_changes none = some 5 ∧
    ∀ v : Int, (∃ w, positive_int v = some w) ↔ 0 < v := by
  refine ⟨rfl, rfl, fun v => ?_⟩
  constructor
  · rintro ⟨w, hw⟩
    by_contra hneg
    simp [positive_int, hneg] at hw
  · intro hv
    exact ⟨v, by simp [positive_int, hv]⟩

/-- The score of a greedy run never exceeds the starting score, for any
strictly-improving step. -/
lemma greedy_run_score_le {σ : Type} (score : σ → Nat) (step : σ → Option σ)
    (himp : ∀ t u, step t = some u → score u < score t) :
    ∀ (n : Nat) (s : σ), score (greedy_run step n s) ≤ score s := by
  intro n
  induction n with
  | zero => intro s; simp [greedy_run]
  | succ k ih =>
    intro s
    simp only [greedy_run]
    cases hs : step s with
    | none => exact le_rfl
    | some t => exact le_trans (ih t) (le_of_lt (himp s t hs))

/-- C5: for any balancing phase expressed as a greedy local search whose
every move strictly reduces the phase's imbalance score, running the
phase never increases the score, and strictly decreases it whenever the
score starts non-zero and a legal improving move exists. -/
theorem phase_imbalance_monotone {σ : Type} (score : σ → Nat) (step : σ → Option σ)
    (himp : ∀ t u, step t = some u → score u < score t) (s : σ) :
    score (greedy_balance score step s) ≤ score s ∧
    (score s ≠ 0 → (∃ u, step s = some u) →
      score (greedy_balance score step s) < score s) := by
  refine ⟨greedy_run_score_le score step himp (score s) s, ?_⟩
  rintro hnz ⟨u, hu⟩
  unfold greedy_balance
  obtain ⟨k, hk⟩ : ∃ k, score s = k + 1 := ⟨score s - 1, by omega⟩
  rw [hk]
  simp only [greedy_run, hu]
  have h1 : score (greedy_run step k u) ≤ score u :=
    greedy_run_score_le score step himp k u
  have h2 : score u < score s := himp s u hu
  omega

/-- Witness for C5: the identity score on `Nat` with the decrement
step, starting from 3. -/
theorem phase_imbalance_monotone_witness :
    id (greedy_balance id decStep 3) ≤ id 3 ∧
    (id 3 ≠ 0 → (∃ u, decStep 3 = some u) →
      id (greedy_balance id decStep 3) < id 3) :=
  phase_imbalance_monotone id decStep
    (fun t u h => by
      cases t with
      | zero => simp [decStep] at h
      | succ m =>
        simp only [decStep, Option.some.injEq] at h
        simp [← h]) 3

/-- C4: the plan reducer is total and budget-bounded: for every baseline
and candidate and any budgets, it returns an assignment over exactly the
baseline's partition keys (a valid, possibly change-free plan) and keeps
at most `maxMov + maxLead` changes; it has no failure outcome. -/
theorem reducer_never_fails (base cand : Assignment) (maxMov maxLead : Nat) :
    (get_reduced_assignment base cand maxMov maxLead).1.map Prod.fst =
      base.map Prod.fst ∧
    (get_reduced_assignment base cand maxMov maxLead).2 ≤ maxMov + maxLead := by
  constructor
  · simp only [get_reduced_assignment]
    rw [List.map_map]
    apply List.map_congr_left
    intro e _
    simp only [Function.comp_apply]
    split <;> rfl
  · simp only [get_reduced_assignment]
    have h1 := List.length_take_le maxMov (movementKeys base cand)
    have h2 := List.length_take_le maxLead (leaderKeys base cand)
    omega

/-- Replacing the head by the element at position `i` (and storing the
old head there) permutes the list. -/
lemma head_set_perm : ∀ (xs : List Nat) (i : Nat) (x y : Nat),
    xs.get? i = some y → List.Perm (y :: xs.set i x) (x :: xs) := by
  intro xs
  induction xs with
  | nil => intro i x y h; simp at h
  | cons z zs ih =>
    intro i x y h
    cases i with
    | zero =>
      simp only [List.get?, Option.some.injEq] at h
      subst h
      exact List.Perm.swap x z zs
    | succ j =>
      simp only [List.get?] at h
      have hp := ih j x y h
      have h1 : List.Perm (y :: z :: zs.set j x) (z :: y :: zs.set j x) :=
        List.Perm.swap z y _
      have h2 : List.Perm (z :: y :: zs.set j x) (z :: x :: zs) :=
        List.Perm.cons z hp
      have h3 : List.Perm (z :: x :: zs) (x :: z :: zs) := List.Perm.swap x z zs
      exact (h1.trans h2).trans h3

/-- A leader promotion only reorders the replica list. -/
lemma promote_at_perm (l : List Nat) (i : Nat) : List.Perm (promote_at l i) l := by
  cases l with
  | nil => simp [promote_at]
  | cons x xs =>
    simp only [promote_at]
    by_cases hi : i = 0
    · rw [if_pos hi]
    · rw [if_neg hi]
      cases h : xs.get? (i - 1) with
      | none => exact List.Perm.refl _
      | some y => exact head_set_perm xs (i - 1) x y h

/-- The key-preserving, replica-permuting relation between an assignment
and its image under leader swaps. -/
lemma forall₂_key_perm_refl (a : Assignment) :
    List.Forall₂ (fun e e' : TPKey × List Nat => e.1 = e'.1 ∧ e.2.Perm e'.2) a a :=
  List.forall₂_same.mpr (fun e _ => ⟨rfl, List.Perm.refl _⟩)

/-- Transitivity of the key-preserving, replica-permuting relation. -/
lemma forall₂_key_perm_trans {a b c : Assignment}
    (h1 : List.Forall₂ (fun e e' : TPKey × List Nat => e.1 = e'.1 ∧ e.2.Perm e'.2) a b)
    (h2 : List.Forall₂ (fun e e' : TPKey × List Nat => e.1 = e'.1 ∧ e.2.Perm e'.2) b c) :
    List.Forall₂ (fun e e' : TPKey × List Nat => e.1 = e'.1 ∧ e.2.Perm e'.2) a c := by
  induction h1 generalizing c with
  | nil => cases h2; exact List.Forall₂.nil
  | cons hR hF ih =>
    cases h2 with
    | cons hR2 hF2 =>
      exact List.Forall₂.cons
        ⟨hR.1.trans hR2.1, hR.2.trans hR2.2⟩ (ih hF2)

/-- One leader swap relates an assignment to its image. -/
lemma leader_swap_forall₂ (a : Assignment) (k : TPKey) (i : Nat) :
    List.Forall₂ (fun e e' : TPKey × List Nat => e.1 = e'.1 ∧ e.2.Perm e'.2)
      a (leader_swap a k i) := by
  unfold leader_swap
  rw [List.forall₂_map_right_iff]
  refine List.forall₂_same.mpr (fun e _ => ?_)
  by_cases hk : e.1 == k
  · rw [if_pos hk]
    exact ⟨rfl, (promote_at_perm e.2 i).symm⟩
  · rw [if_neg hk]
    exact ⟨rfl, List.Perm.refl _⟩

/-- A whole leader-balancer run relates an assignment to its image. -/
lemma rebalance_leaders_run_forall₂ (a : Assignment) (moves : List (TPKey × Nat)) :
    List.Forall₂ (fun e e' : TPKey × List Nat => e.1 = e'.1 ∧ e.2.Perm e'.2)
      a (rebalance_leaders_run a moves) := by
  induction moves generalizing a with
  | nil => exact forall₂_key_perm_refl a
  | cons mv ms ih =>
    have hstep : rebalance_leaders_run a (mv :: ms) =
        rebalance_leaders_run (leader_swap a mv.1 mv.2) ms := rfl
    rw [hstep]
    exact forall₂_key_perm_trans (leader_swap_forall₂ a mv.1 mv.2)
      (ih (leader_swap a mv.1 mv.2))

/-- Filtering related lists by compatible predicates yields equal
lengths. -/
lemma forall₂_filter_length {α : Type} {R : α → α → Prop} {p q : α → Bool} :
    ∀ {l l' : List α}, List.Forall₂ R l l' → (∀ x y, R x y → p x = q y) →
      (l.filter p).length = (l'.filter q).length := by
  intro l l' h hc
  induction h with
  | nil => rfl
  | cons hR hF ih =>
    rename_i x y tl tl'
    simp only [List.filter_cons]
    rw [← hc x y hR]
    cases hp : p x <;> simp [ih]

/-- Summing compatible per-entry counts over compatibly filtered related
lists yields equal sums. -/
lemma forall₂_filter_map_sum {α : Type} {R : α → α → Prop} {p q : α → Bool}
    {f g : α → Nat} :
    ∀ {l l' : List α}, List.Forall₂ R l l' →
      (∀ x y, R x y → p x = q y ∧ f x = g y) →
      ((l.filter p).map f).sum = ((l'.filter q).map g).sum := by
  intro l l' h hc
  induction h with
  | nil => rfl
  | cons hR hF ih =>
    rename_i x y tl tl'
    simp only [List.filter_cons]
    rw [← (hc x y hR).1]
    cases hp : p x <;> simp [ih, (hc x y hR).2]

/-- C7: a leader-balancer run (any sequence of leader swaps) keeps every
partition key and permutes each partition's replica list in place, so
every replica set is unchanged; consequently each broker hosts exactly
as many partitions as before (the `partition_cnt` inputs) and each
replication group holds exactly as many replicas of each topic as
before (the `replica_cnt` inputs). -/
theorem leader_balancer_only_reorders (a : Assignment)
    (moves : List (TPKey × Nat)) :
    List.Forall₂ (fun e e' : TPKey × List Nat => e.1 = e'.1 ∧ e.2.Perm e'.2)
      a (rebalance_leaders_run a moves) ∧
    (∀ b, broker_partition_cnt (rebalance_leaders_run a moves) b =
      broker_partition_cnt a b) ∧
    ∀ (t : String) (inGroup : Nat → Bool),
      topic_group_replica_cnt (rebalance_leaders_run a moves) t inGroup =
        topic_group_replica_cnt a t inGroup := by
  have hF := rebalance_leaders_run_forall₂ a moves
  refine ⟨hF, fun b => ?_, fun t inGroup => ?_⟩
  · exact (forall₂_filter_length hF
      (fun x y hxy => by simp [hxy.2.mem_iff])).symm
  · exact (forall₂_filter_map_sum hF
      (fun x y hxy => ⟨by rw [hxy.1], hxy.2.countP_eq inGroup⟩)).symm

/-- The count `countP` only depends on the predicate's values on the list. -/
lemma countP_congr_mem {α : Type} {p q : α → Bool} :
    ∀ {l : List α}, (∀ x ∈ l, p x = q x) → l.countP p = l.countP q := by
  intro l h
  induction l with
  | nil => rfl
  | cons x xs ih =>
    rw [List.countP_cons, List.countP_cons, h x (List.mem_cons_self x xs),
      ih (fun y hy => h y (List.mem_cons_of_mem x hy))]

/-- The predicate `sameSet` is reflexive. -/
lemma sameSet_refl (l : List Nat) : sameSet l l = true := by
  simp only [sameSet, Bool.and_eq_true, List.all_eq_true]
  exact ⟨fun b hb => List.elem_iff.mpr hb, fun b hb => List.elem_iff.mpr hb⟩

/-- A movement's candidate list differs from the baseline list. -/
lemma isMovement_ne {b c : List Nat} (h : isMovement b c = true) : c ≠ b := by
  intro he
  subst he
  rw [isMovement, sameSet_refl] at h
  simp at h

/-- A leader-only change's candidate list differs from the baseline
list. -/
lemma isLeaderOnly_ne {b c : List Nat} (h : isLeaderOnly b c = true) : c ≠ b := by
  intro he
  subst he
  simp [isLeaderOnly] at h

/-- A partition cannot be both a movement and a leader-only change. -/
lemma not_isMovement_and_isLeaderOnly {b c : List Nat}
    (h1 : isMovement b c = true) (h2 : isLeaderOnly b c = true) : False := by
  simp only [isMovement, Bool.not_eq_true'] at h1
  simp only [isLeaderOnly, Bool.and_eq_true] at h2
  rw [h2.1] at h1
  exact Bool.true_eq_false.mp h1

/-- Membership characterization of `movementKeys`. -/
lemma mem_movementKeys {base cand : Assignment} {k : TPKey} :
    k ∈ movementKeys base cand ↔
      ∃ e, e ∈ base ∧ e.1 = k ∧ isMovement e.2 (candOf cand e.1 e.2) = true := by
  simp only [movementKeys, List.mem_map, List.mem_filter]
  constructor
  · rintro ⟨e, ⟨he, hp⟩, hek⟩; exact ⟨e, he, hek, hp⟩
  · rintro ⟨e, he, hek, hp⟩; exact ⟨e, ⟨he, hp⟩, hek⟩

/-- Membership characterization of `leaderKeys`. -/
lemma mem_leaderKeys {base cand : Assignment} {k : TPKey} :
    k ∈ leaderKeys base cand ↔
      ∃ e, e ∈ base ∧ e.1 = k ∧ isLeaderOnly e.2 (candOf cand e.1 e.2) = true := by
  simp only [leaderKeys, List.mem_map, List.mem_filter]
  constructor
  · rintro ⟨e, ⟨he, hp⟩, hek⟩; exact ⟨e, he, hek, hp⟩
  · rintro ⟨e, he, hek, hp⟩; exact ⟨e, ⟨he, hp⟩, hek⟩

/-- With duplicate-free keys, an assignment entry is determined by its
key. -/
lemma entry_unique {base : Assignment} (hnd : (base.map Prod.fst).Nodup)
    {e e' : TPKey × List Nat} (he : e ∈ base) (he' : e' ∈ base)
    (hk : e.1 = e'.1) : e = e' :=
  List.inj_on_of_nodup_map hnd he he' hk

/-- The movement keys are keys of the baseline, in order. -/
lemma movementKeys_sublist (base cand : Assignment) :
    List.Sublist (movementKeys base cand) (base.map Prod.fst) :=
  List.Sublist.map Prod.fst (List.filter_sublist base)

/-- The leader-change keys are keys of the baseline, in order. -/
lemma leaderKeys_sublist (base cand : Assignment) :
    List.Sublist (leaderKeys base cand) (base.map Prod.fst) :=
  List.Sublist.map Prod.fst (List.filter_sublist base)

/-- The entry of a movement key is a movement. -/
lemma isMovement_of_mem_movementKeys {base cand : Assignment}
    (hnd : (base.map Prod.fst).Nodup) {e : TPKey × List Nat} (he : e ∈ base)
    (hk : e.1 ∈ movementKeys base cand) :
    isMovement e.2 (candOf cand e.1 e.2) = true := by
  obtain ⟨e', he', hek, hp⟩ := mem_movementKeys.mp hk
  rwa [entry_unique hnd he' he hek] at hp

/-- The entry of a leader-change key is a leader-only change. -/
lemma isLeaderOnly_of_mem_leaderKeys {base cand : Assignment}
    (hnd : (base.map Prod.fst).Nodup) {e : TPKey × List Nat} (he : e ∈ base)
    (hk : e.1 ∈ leaderKeys base cand) :
    isLeaderOnly e.2 (candOf cand e.1 e.2) = true := by
  obtain ⟨e', he', hek, hp⟩ := mem_leaderKeys.mp hk
  rwa [entry_unique hnd he' he hek] at hp

/-- A kept key comes from one of the two kept prefixes. -/
lemma kept_contains_cases {base cand : Assignment} {m l : Nat} {k : TPKey}
    (h : ((movementKeys base cand).take m ++
      (leaderKeys base cand).take l).contains k = true) :
    k ∈ (movementKeys base cand).take m ∨ k ∈ (leaderKeys base cand).take l :=
  List.mem_append.mp (List.elem_iff.mp h)

/-- A kept entry's candidate list really differs from its baseline
list. -/
lemma candOf_ne_of_kept {base cand : Assignment}
    (hnd : (base.map Prod.fst).Nodup) {e : TPKey × List Nat} (he : e ∈ base)
    {m l : Nat}
    (hc : ((movementKeys base cand).take m ++
      (leaderKeys base cand).take l).contains e.1 = true) :
    candOf cand e.1 e.2 ≠ e.2 := by
  rcases kept_contains_cases hc with hk | hk
  · exact isMovement_ne
      (isMovement_of_mem_movementKeys hnd he (List.mem_of_mem_take hk))
  · exact isLeaderOnly_ne
      (isLeaderOnly_of_mem_leaderKeys hnd he (List.mem_of_mem_take hk))

/-- The kept key list has no duplicates. -/
lemma kept_nodup (base cand : Assignment) (m l : Nat)
    (hnd : (base.map Prod.fst).Nodup) :
    ((movementKeys base cand).take m ++ (leaderKeys base cand).take l).Nodup := by
  rw [List.nodup_append]
  refine ⟨List.Nodup.sublist
      ((List.take_sublist m _).trans (movementKeys_sublist base cand)) hnd,
    List.Nodup.sublist
      ((List.take_sublist l _).trans (leaderKeys_sublist base cand)) hnd,
    fun k h1 h2 => ?_⟩
  obtain ⟨e, he, hek, hp⟩ := mem_movementKeys.mp (List.mem_of_mem_take h1)
  obtain ⟨e', he', hek', hp'⟩ := mem_leaderKeys.mp (List.mem_of_mem_take h2)
  have hee : e' = e := entry_unique hnd he' he (hek'.trans hek.symm)
  rw [hee] at hp'
  exact not_isMovement_and_isLeaderOnly hp hp'

/-- Every kept key is a baseline key. -/
lemma kept_subset (base cand : Assignment) (m l : Nat) :
    ∀ x ∈ (movementKeys base cand).take m ++ (leaderKeys base cand).take l,
      x ∈ base.map Prod.fst := by
  intro x hx
  rcases List.mem_append.mp hx with h | h
  · exact (movementKeys_sublist base cand).subset (List.mem_of_mem_take h)
  · exact (leaderKeys_sublist base cand).subset (List.mem_of_mem_take h)

/-- Counting keys of a duplicate-free list that fall in a duplicate-free
selection counts the whole selection. -/
lemma countP_contains_of_nodup {keys kept : List TPKey} (hk : keys.Nodup)
    (hkept : kept.Nodup) (hsub : ∀ x ∈ kept, x ∈ keys) :
    keys.countP (fun k => kept.contains k) = kept.length := by
  rw [List.countP_eq_length_filter]
  have hfnd : (keys.filter (fun k => kept.contains k)).Nodup :=
    List.Nodup.sublist (List.filter_sublist keys) hk
  have hmem : ∀ x, x ∈ keys.filter (fun k => kept.contains k) ↔ x ∈ kept := by
    intro x
    rw [List.mem_filter]
    constructor
    · rintro ⟨-, h⟩; exact List.elem_iff.mp h
    · intro h; exact ⟨hsub x h, List.elem_iff.mpr h⟩
  exact ((List.perm_ext_iff_of_nodup hfnd hkept).mpr hmem).length_eq

/-- The count returned by the reducer equals the number of entries of
the reduced assignment that actually differ from the baseline. -/
lemma reduced_snd_eq_changed (base cand : Assignment) (m l : Nat)
    (hnd : (base.map Prod.fst).Nodup) :
    (get_reduced_assignment base cand m l).2 =
      changed_entry_cnt base (get_reduced_assignment base cand m l).1 := by
  have h1 : changed_entry_cnt base (get_reduced_assignment base cand m l).1 =
      base.countP (fun e =>
        decide (e ≠ (if ((movementKeys base cand).take m ++
            (leaderKeys base cand).take l).contains e.1
          then (e.1, candOf cand e.1 e.2) else e))) := by
    show ((base.zip (base.map _)).filter _).length = _
    have hz := List.zip_map' (fun x => x)
      (fun (e : TPKey × List Nat) =>
        if ((movementKeys base cand).take m ++
            (leaderKeys base cand).take l).contains e.1
        then (e.1, candOf cand e.1 e.2) else e) base
    simp only [List.map_id'] at hz
    rw [hz, ← List.countP_eq_length_filter, List.countP_map]
    rfl
  have h2 : base.countP (fun e =>
      decide (e ≠ (if ((movementKeys base cand).take m ++
          (leaderKeys base cand).take l).contains e.1
        then (e.1, candOf cand e.1 e.2) else e))) =
      base.countP (fun e =>
        ((movementKeys base cand).take m ++
          (leaderKeys base cand).take l).contains e.1) := by
    apply countP_congr_mem
    intro e he
    by_cases hc : ((movementKeys base cand).take m ++
        (leaderKeys base cand).take l).contains e.1 = true
    · rw [if_pos hc, hc]
      apply decide_eq_true
      intro heq
      exact candOf_ne_of_kept hnd he hc (congrArg Prod.snd heq).symm
    · rw [if_neg hc, Bool.eq_false_iff.mpr hc]
      simp
  have h3 : base.countP (fun e =>
      ((movementKeys base cand).take m ++
        (leaderKeys base cand).take l).contains e.1) =
      ((movementKeys base cand).take m ++
        (leaderKeys base cand).take l).length := by
    rw [show (fun (e : TPKey × List Nat) =>
        ((movementKeys base cand).take m ++
          (leaderKeys base cand).take l).contains e.1) =
        ((fun k => ((movementKeys base cand).take m ++
          (leaderKeys base cand).take l).contains k) ∘ Prod.fst) from rfl]
    rw [← List.countP_map]
    exact countP_contains_of_nodup hnd (kept_nodup base cand m l hnd)
      (kept_subset base cand m l)
  rw [h1, h2, h3]
  show _ + _ = _
  rw [List.length_append]

/-- C3: with duplicate-free baseline keys, every entry of the reduced
assignment either carries the candidate's full replica list for its key
or is exactly its baseline entry (never a partial mix), and the returned
count equals the number of changes actually kept in the reduced
assignment. -/
theorem reducer_keeps_full_or_reverts (base cand : Assignment) (m l : Nat)
    (hnd : (base.map Prod.fst).Nodup) :
    (∀ e ∈ (get_reduced_assignment base cand m l).1,
        lookupA cand e.1 = some e.2 ∨ e ∈ base) ∧
    (get_reduced_assignment base cand m l).2 =
      changed_entry_cnt base (get_reduced_assignment base cand m l).1 := by
  refine ⟨?_, reduced_snd_eq_changed base cand m l hnd⟩
  intro e he
  simp only [get_reduced_assignment, List.mem_map] at he
  obtain ⟨e0, he0, rfl⟩ := he
  by_cases hc : ((movementKeys base cand).take m ++
      (leaderKeys base cand).take l).contains e0.1 = true
  · rw [if_pos hc]
    cases hl : lookupA cand e0.1 with
    | none =>
      right
      have : candOf cand e0.1 e0.2 = e0.2 := by rw [candOf, hl]; rfl
      rw [this]
      exact he0
    | some c =>
      left
      have : candOf cand e0.1 e0.2 = c := by rw [candOf, hl]; rfl
      rw [this]
  · rw [if_neg hc]
    exact Or.inr he0

/-- Witness for C3: one movement, one leader change, one untouched
partition, budgets 1 and 1. -/
theorem reducer_keeps_full_or_reverts_witness :
    (∀ e ∈ (get_reduced_assignment
        [(("t", 0), [1, 2]), (("t", 1), [3, 4]), (("t", 2), [5, 6])]
        [(("t", 0), [2, 1]), (("t", 1), [3, 7]), (("t", 2), [5, 6])] 1 1).1,
      lookupA [(("t", 0), [2, 1]), (("t", 1), [3, 7]), (("t", 2), [5, 6])] e.1 =
        some e.2 ∨
      e ∈ [(("t", 0), [1, 2]), (("t", 1), [3, 4]), (("t", 2), [5, 6])]) ∧
    (get_reduced_assignment
        [(("t", 0), [1, 2]), (("t", 1), [3, 4]), (("t", 2), [5, 6])]
        [(("t", 0), [2, 1]), (("t", 1), [3, 7]), (("t", 2), [5, 6])] 1 1).2 =
      changed_entry_cnt
        [(("t", 0), [1, 2]), (("t", 1), [3, 4]), (("t", 2), [5, 6])]
        (get_reduced_assignment
          [(("t", 0), [1, 2]), (("t", 1), [3, 4]), (("t", 2), [5, 6])]
          [(("t", 0), [2, 1]), (("t", 1), [3, 7]), (("t", 2), [5, 6])] 1 1).1 :=
  reducer_keeps_full_or_reverts
    [(("t", 0), [1, 2]), (("t", 1), [3, 4]), (("t", 2), [5, 6])]
    [(("t", 0), [2, 1]), (("t", 1), [3, 7]), (("t", 2), [5, 6])] 1 1
    (by decide)

/-- Looking up a key in a key-preserving map of a duplicate-free
assignment finds the image of that key's entry. -/
lemma lookupA_map_of_mem (f : TPKey × List Nat → TPKey × List Nat)
    (hf : ∀ e, (f e).1 = e.1) :
    ∀ {base : Assignment}, (base.map Prod.fst).Nodup →
      ∀ {e : TPKey × List Nat}, e ∈ base →
        lookupA (base.map f) e.1 = some (f e).2 := by
  intro base
  induction base with
  | nil => intro _ e he; cases he
  | cons b bs ih =>
    intro hnd e he
    rw [List.map_cons, List.nodup_cons] at hnd
    rcases List.mem_cons.mp he with rfl | he'
    · unfold lookupA
      rw [List.map_cons, List.find?_cons_of_pos]
      · rfl
      · exact beq_iff_eq.mpr (hf e)
    · have hb : ¬ ((f b).1 == e.1) = true := by
        rw [hf b]
        intro hcontra
        apply hnd.1
        rw [beq_iff_eq.mp hcontra]
        exact List.mem_map_of_mem Prod.fst he'
      unfold lookupA
      rw [List.map_cons, List.find?_cons_of_neg]
      · exact ih hnd.2 he'
      · exact hb

/-- For a baseline entry, the reduced assignment's replica list is the
entry's image under the reduction map. -/
lemma candOf_reduced (base cand : Assignment) (m l : Nat)
    (hnd : (base.map Prod.fst).Nodup) :
    ∀ e ∈ base,
      candOf (get_reduced_assignment base cand m l).1 e.1 e.2 =
        (if ((movementKeys base cand).take m ++
            (leaderKeys base cand).take l).contains e.1
         then (e.1, candOf cand e.1 e.2) else e).2 := by
  intro e he
  have hlu := lookupA_map_of_mem
    (fun e => if ((movementKeys base cand).take m ++
        (leaderKeys base cand).take l).contains e.1
      then (e.1, candOf cand e.1 e.2) else e)
    (fun e => by dsimp only; split <;> rfl) hnd he
  show (lookupA (get_reduced_assignment base cand m l).1 e.1).getD e.2 = _
  rw [show (get_reduced_assignment base cand m l).1 =
    base.map (fun e => if ((movementKeys base cand).take m ++
        (leaderKeys base cand).take l).contains e.1
      then (e.1, candOf cand e.1 e.2) else e) from rfl]
  rw [hlu]
  rfl

/-- The reduced assignment contains at most `m` movement partitions. -/
lemma movement_cnt_reduced_le (base cand : Assignment) (m l : Nat)
    (hnd : (base.map Prod.fst).Nodup) :
    movement_cnt base (get_reduced_assignment base cand m l).1 ≤ m := by
  have hsub : ∀ k ∈ (base.filter (fun e =>
      isMovement e.2 (candOf (get_reduced_assignment base cand m l).1 e.1 e.2))).map
        Prod.fst,
      k ∈ (movementKeys base cand).take m := by
    intro k hk
    obtain ⟨e, hef, hek⟩ := List.mem_map.mp hk
    obtain ⟨he, hP⟩ := List.mem_filter.mp hef
    rw [candOf_reduced base cand m l hnd e he] at hP
    by_cases hc : ((movementKeys base cand).take m ++
        (leaderKeys base cand).take l).contains e.1 = true
    · rw [if_pos hc] at hP
      rcases kept_contains_cases hc with hk2 | hk2
      · rw [← hek]; exact hk2
      · exact absurd
          (isLeaderOnly_of_mem_leaderKeys hnd he (List.mem_of_mem_take hk2))
          (fun h => not_isMovement_and_isLeaderOnly hP h)
    · rw [if_neg hc] at hP
      exact absurd rfl (isMovement_ne hP)
  have hnodS : ((base.filter (fun e =>
      isMovement e.2 (candOf (get_reduced_assignment base cand m l).1 e.1 e.2))).map
        Prod.fst).Nodup :=
    List.Nodup.sublist (List.Sublist.map Prod.fst (List.filter_sublist base)) hnd
  have hlen := (List.Nodup.subperm hnodS hsub).length_le
  rw [List.length_map] at hlen
  exact le_trans hlen (List.length_take_le m _)

/-- The reduced assignment contains at most `l` leader-only-change
partitions. -/
lemma leader_change_cnt_reduced_le (base cand : Assignment) (m l : Nat)
    (hnd : (base.map Prod.fst).Nodup) :
    leader_change_cnt base (get_reduced_assignment base cand m l).1 ≤ l := by
  have hsub : ∀ k ∈ (base.filter (fun e =>
      isLeaderOnly e.2 (candOf (get_reduced_assignment base cand m l).1 e.1 e.2))).map
        Prod.fst,
      k ∈ (leaderKeys base cand).take l := by
    intro k hk
    obtain ⟨e, hef, hek⟩ := List.mem_map.mp hk
    obtain ⟨he, hP⟩ := List.mem_filter.mp hef
    rw [candOf_reduced base cand m l hnd e he] at hP
    by_cases hc : ((movementKeys base cand).take m ++
        (leaderKeys base cand).take l).contains e.1 = true
    · rw [if_pos hc] at hP
      rcases kept_contains_cases hc with hk2 | hk2
      · exact absurd
          (isMovement_of_mem_movementKeys hnd he (List.mem_of_mem_take hk2))
          (fun h => not_isMovement_and_isLeaderOnly h hP)
      · rw [← hek]; exact hk2
    · rw [if_neg hc] at hP
      exact absurd rfl (isLeaderOnly_ne hP)
  have hnodS : ((base.filter (fun e =>
      isLeaderOnly e.2 (candOf (get_reduced_assignment base cand m l).1 e.1 e.2))).map
        Prod.fst).Nodup :=
    List.Nodup.sublist (List.Sublist.map Prod.fst (List.filter_sublist base)) hnd
  have hlen := (List.Nodup.subperm hnodS hsub).length_le
  rw [List.length_map] at hlen
  exact le_trans hlen (List.length_take_le l _)

/-- C10: any plan a run exports or executes is the plan of the reduced
assignment — never the unreduced balanced assignment — and that reduced
assignment respects both budgets: at most `max_partition_movements`
movement partitions and at most `max_leader_changes` leader-only
changes against the baseline. -/
theorem plans_built_from_reduced_assignment (env : ClusterEnv) (args : Args)
    (hnd : (env.initial_assignment.map Prod.fst).Nodup) (p : Plan)
    (hp : Event.exported p ∈ (rebalance_cluster env args).1 ∨
          Event.executed p ∈ (rebalance_cluster env args).1) :
    ∃ a, (build_balanced_assignment env args).2 = Except.ok a ∧
      p = assignment_to_plan (get_reduced_assignment env.initial_assignment a
            args.max_partition_movements args.max_leader_changes).1 ∧
      movement_cnt env.initial_assignment
        (get_reduced_assignment env.initial_assignment a
          args.max_partition_movements args.max_leader_changes).1 ≤
        args.max_partition_movements ∧
      leader_change_cnt env.initial_assignment
        (get_reduced_assignment env.initial_assignment a
          args.max_partition_movements args.max_leader_changes).1 ≤
        args.max_leader_changes := by
  simp only [rebalance_cluster] at hp
  by_cases hpd : env.pending = true
  · rw [if_pos hpd] at hp
    simp at hp
  · rw [if_neg hpd] at hp
    rcases hb : build_balanced_assignment env args with ⟨ev, res⟩
    rw [hb] at hp
    cases res with
    | error r => simp at hp
    | ok a =>
      dsimp only at hp
      refine ⟨a, rfl, ?_,
        movement_cnt_reduced_le env.initial_assignment a
          args.max_partition_movements args.max_leader_changes hnd,
        leader_change_cnt_reduced_le env.initial_assignment a
          args.max_partition_movements args.max_leader_changes hnd⟩
      by_cases hv : env.validate_plan (assignment_to_plan a)
          (assignment_to_plan env.initial_assignment) = true
      · rw [if_pos hv] at hp
        by_cases hpf : args.proposed_plan_file = true
        · rw [if_pos hpf] at hp
          rcases hp with hp | hp <;> simp at hp <;> exact hp
        · rw [if_neg hpf] at hp
          rcases hp with hp | hp <;> simp at hp <;> exact hp
      · rw [if_neg hv] at hp
        simp at hp

/-- Witness for C10 at a concrete run that executes its plan. -/
theorem plans_built_from_reduced_assignment_witness :
    ∃ a, (build_balanced_assignment (envOf false true) allPhaseArgs).2 =
        Except.ok a ∧
      Plan.mk 1 [("t", 0, [1, 2])] =
        assignment_to_plan (get_reduced_assignment
          (envOf false true).initial_assignment a
          allPhaseArgs.max_partition_movements
          allPhaseArgs.max_leader_changes).1 ∧
      movement_cnt (envOf false true).initial_assignment
        (get_reduced_assignment (envOf false true).initial_assignment a
          allPhaseArgs.max_partition_movements
          allPhaseArgs.max_leader_changes).1 ≤
        allPhaseArgs.max_partition_movements ∧
      leader_change_cnt (envOf false true).initial_assignment
        (get_reduced_assignment (envOf false true).initial_assignment a
          allPhaseArgs.max_partition_movements
          allPhaseArgs.max_leader_changes).1 ≤
        allPhaseArgs.max_leader_changes :=
  plans_built_from_reduced_assignment (envOf false true) allPhaseArgs
    (by decide) (Plan.mk 1 [("t", 0, [1, 2])]) (Or.inr (by decide))
